import Mathlib

/-!
Verification of the repfor string search-and-replace engine.

Go strings are modelled as `List Char` (byte-level for the ASCII inputs the
engine manipulates).  Each Go function of the replacement engine is translated
into a Lean definition keeping its name and control structure; scanning loops
that advance an index are translated into fuel-based recursions whose wrappers
supply fuel larger than the scanned string, so that every definition is
executable and the loop is never cut short.
-/

namespace Repfor

/-- Go strings, modelled byte-by-byte as lists of characters. -/
abbrev Str := List Char

deriving instance DecidableEq for Except

/-- Char-wise ASCII lower-casing, modelling `strings.ToLower` on the ASCII
strings handled by the engine. -/
def toLowerChar (c : Char) : Char :=
  if 'A' ≤ c ∧ c ≤ 'Z' then Char.ofNat (c.toNat + 32) else c

/-- `strings.ToLower` on a whole string. -/
def toLowerStr (s : Str) : Str := s.map toLowerChar

/-- `isWordChar` from the source: ASCII letters, digits and underscore are word
characters. -/
def isWordChar (c : Char) : Bool :=
  decide (('a' ≤ c ∧ c ≤ 'z') ∨ ('A' ≤ c ∧ c ≤ 'Z') ∨ ('0' ≤ c ∧ c ≤ '9') ∨ c = '_')

/-- `strings.Index`: the first index at which `s` occurs in `l`, if any. -/
def indexOf? (l s : Str) : Option Nat :=
  if s.isPrefixOf l then some 0
  else
    match l with
    | [] => none
    | _ :: t => (indexOf? t s).map (· + 1)

/-- `strings.Contains`. -/
def containsStr (l s : Str) : Bool := (indexOf? l s).isSome

theorem toLowerStr_length (s : Str) : (toLowerStr s).length = s.length :=
  List.length_map _ _

theorem toLowerStr_drop (s : Str) (n : Nat) :
    (toLowerStr s).drop n = toLowerStr (s.drop n) :=
  (List.map_drop ..).symm

theorem toLowerStr_eq_nil_iff (s : Str) : toLowerStr s = [] ↔ s = [] := by
  simp [toLowerStr]

theorem indexOf?_some_occ {l s : Str} {i : Nat} (h : indexOf? l s = some i) :
    s <+: l.drop i := by
  induction l generalizing i with
  | nil =>
    rw [indexOf?] at h
    split at h
    · rename_i hp
      simp only [Option.some.injEq] at h
      subst h
      simpa using List.isPrefixOf_iff_prefix.mp hp
    · simp at h
  | cons c t ih =>
    rw [indexOf?] at h
    split at h
    · rename_i hp
      simp only [Option.some.injEq] at h
      subst h
      simpa using List.isPrefixOf_iff_prefix.mp hp
    · simp only [Option.map_eq_some'] at h
      obtain ⟨j, hj, rfl⟩ := h
      simpa using ih hj

theorem indexOf?_some_min {l s : Str} {i : Nat} (h : indexOf? l s = some i) :
    ∀ j < i, ¬ s <+: l.drop j := by
  induction l generalizing i with
  | nil =>
    rw [indexOf?] at h
    split at h
    · simp only [Option.some.injEq] at h
      subst h
      intro j hj
      omega
    · simp at h
  | cons c t ih =>
    rw [indexOf?] at h
    split at h
    · simp only [Option.some.injEq] at h
      subst h
      intro j hj
      omega
    · rename_i hp
      simp only [Option.map_eq_some'] at h
      obtain ⟨k, hk, rfl⟩ := h
      intro j hj
      match j with
      | 0 =>
        simpa [List.isPrefixOf_iff_prefix] using hp
      | j' + 1 =>
        simpa using ih hk j' (by omega)

theorem indexOf?_none {l s : Str} (h : indexOf? l s = none) :
    ∀ j, ¬ s <+: l.drop j := by
  induction l with
  | nil =>
    rw [indexOf?] at h
    split at h
    · simp at h
    · intro j hj
      rename_i hp
      rw [List.drop_nil] at hj
      exact hp (List.isPrefixOf_iff_prefix.mpr (by simpa using hj))
  | cons c t ih =>
    rw [indexOf?] at h
    split at h
    · simp at h
    · rename_i hp
      simp only [Option.map_eq_none'] at h
      intro j hj
      match j with
      | 0 => exact hp (List.isPrefixOf_iff_prefix.mpr (by simpa using hj))
      | j' + 1 => exact ih h j' (by simpa using hj)

theorem indexOf?_of_occ {l s : Str} {i : Nat} (h : s <+: l.drop i) :
    ∃ j, j ≤ i ∧ indexOf? l s = some j := by
  cases hx : indexOf? l s with
  | none => exact absurd h (indexOf?_none hx i)
  | some j =>
    refine ⟨j, ?_, rfl⟩
    by_contra hc
    exact indexOf?_some_min hx i (by omega) h

theorem indexOf?_eq_some_of {l s : Str} {i : Nat} (h : s <+: l.drop i)
    (hmin : ∀ j < i, ¬ s <+: l.drop j) : indexOf? l s = some i := by
  obtain ⟨j, hj, hx⟩ := indexOf?_of_occ h
  rcases Nat.lt_or_ge j i with hlt | hge
  · exact absurd (indexOf?_some_occ hx) (hmin j hlt)
  · have : j = i := by omega
    rwa [this] at hx

theorem occ_length {l s : Str} {i : Nat} (hs : s ≠ []) (h : s <+: l.drop i) :
    i + s.length ≤ l.length := by
  obtain ⟨u, hu⟩ := h
  have hlen : s.length + u.length = l.length - i := by
    have := congrArg List.length hu
    simpa using this
  have hi : i < l.length := by
    by_contra hc
    have hd : l.drop i = [] := List.drop_eq_nil_of_le (by omega)
    rw [hd] at hu
    exact hs (List.append_eq_nil.mp hu).1
  omega

theorem indexOf?_some_length {l s : Str} {i : Nat} (hs : s ≠ [])
    (h : indexOf? l s = some i) : i + s.length ≤ l.length :=
  occ_length hs (indexOf?_some_occ h)

theorem indexOf?_none_of_not_mem {l r : Str} (hr : r ≠ [])
    (h : ∀ c ∈ r, c ∉ l) : indexOf? l r = none := by
  cases hx : indexOf? l r with
  | none => rfl
  | some i =>
    obtain ⟨c, r', rfl⟩ := List.exists_cons_of_ne_nil hr
    obtain ⟨u, hu⟩ := indexOf?_some_occ hx
    have hc : c ∈ l.drop i := by
      rw [← hu]; simp
    exact absurd (List.drop_subset i l hc) (h c (by simp))

theorem containsStr_iff_occ (l s : Str) :
    containsStr l s = true ↔ ∃ i, s <+: l.drop i := by
  constructor
  · intro h
    rw [containsStr, Option.isSome_iff_exists] at h
    obtain ⟨i, hi⟩ := h
    exact ⟨i, indexOf?_some_occ hi⟩
  · rintro ⟨i, hi⟩
    obtain ⟨j, _, hj⟩ := indexOf?_of_occ hi
    simp [containsStr, hj]

theorem mem_of_containsStr_single {l : Str} {c : Char} (h : c ∈ l) :
    containsStr l [c] = true := by
  rw [containsStr_iff_occ]
  obtain ⟨i, hi⟩ := List.mem_iff_getElem.mp h
  obtain ⟨hlt, hget⟩ := hi
  refine ⟨i, ?_⟩
  have hd : l.drop i = c :: l.drop (i + 1) := by
    rw [List.drop_eq_getElem_cons hlt, hget]
  rw [hd]
  exact ⟨l.drop (i + 1), rfl⟩

theorem not_mem_of_not_containsStr_single {l : Str} {c : Char}
    (h : containsStr l [c] = false) : c ∉ l := by
  intro hc
  rw [mem_of_containsStr_single hc] at h
  simp at h

/-! ## The four line-level replacement modes

Each Go replacement loop is translated into a fuel-based recursion that walks
the remaining suffix of the line exactly as the source does.  The function
returns the rewritten string paired with the number of substitutions the loop
performed; the string component is the source function's result.  The wrappers
below supply `line.length + 1` fuel, which always exceeds the number of loop
iterations because every iteration strictly shortens the remaining suffix. -/

/-- Loop of Go `strings.ReplaceAll` (non-overlapping, left-to-right), used by
`replaceInLine` when neither flag is set.  Also returns the substitution
count. -/
def replaceAllAux (search replace : Str) : Nat → Str → Str × Nat
  | 0, l => (l, 0)
  | fuel + 1, l =>
    match indexOf? l search with
    | none => (l, 0)
    | some i =>
      let rest := replaceAllAux search replace fuel (l.drop (i + search.length))
      (l.take i ++ replace ++ rest.1, rest.2 + 1)

/-- `strings.ReplaceAll line search replace` for non-empty `search`, paired
with the number of substitutions performed. -/
def goReplaceAll (line search replace : Str) : Str × Nat :=
  replaceAllAux search replace (line.length + 1) line

/-- Loop of `caseInsensitiveReplace`: find the lower-cased pattern in the
lower-cased remainder, splice in `replace` verbatim, resume after the match. -/
def ciReplaceAux (search replace : Str) : Nat → Str → Str × Nat
  | 0, l => (l, 0)
  | fuel + 1, l =>
    match indexOf? (toLowerStr l) (toLowerStr search) with
    | none => (l, 0)
    | some i =>
      let rest := ciReplaceAux search replace fuel (l.drop (i + search.length))
      (l.take i ++ replace ++ rest.1, rest.2 + 1)

/-- `caseInsensitiveReplace` from the source, paired with its substitution
count. -/
def caseInsensitiveReplace (line search replace : Str) : Str × Nat :=
  ciReplaceAux search replace (line.length + 1) line

/-- Loop of `wholeWordReplace`: on a boundary-valid occurrence substitute and
resume after the match; otherwise copy one character and retry. -/
def wwReplaceAux (search replace : Str) : Nat → Str → Str × Nat
  | 0, l => (l, 0)
  | fuel + 1, l =>
    match indexOf? l search with
    | none => (l, 0)
    | some i =>
      let afterIdx := i + search.length
      if (i = 0 ∨ isWordChar (l.getD (i - 1) ' ') = false) ∧
          (l.length ≤ afterIdx ∨ isWordChar (l.getD afterIdx ' ') = false) then
        let rest := wwReplaceAux search replace fuel (l.drop afterIdx)
        (l.take i ++ replace ++ rest.1, rest.2 + 1)
      else
        let rest := wwReplaceAux search replace fuel (l.drop (i + 1))
        (l.take (i + 1) ++ rest.1, rest.2)

/-- `wholeWordReplace` from the source, paired with its substitution count. -/
def wholeWordReplace (line search replace : Str) : Str × Nat :=
  wwReplaceAux search replace (line.length + 1) line

/-- Loop of `caseInsensitiveWholeWordReplace`: lower-cased matching plus the
boundary check of `wholeWordReplace` on the original characters. -/
def ciwwReplaceAux (search replace : Str) : Nat → Str → Str × Nat
  | 0, l => (l, 0)
  | fuel + 1, l =>
    match indexOf? (toLowerStr l) (toLowerStr search) with
    | none => (l, 0)
    | some i =>
      let afterIdx := i + search.length
      if (i = 0 ∨ isWordChar (l.getD (i - 1) ' ') = false) ∧
          (l.length ≤ afterIdx ∨ isWordChar (l.getD afterIdx ' ') = false) then
        let rest := ciwwReplaceAux search replace fuel (l.drop afterIdx)
        (l.take i ++ replace ++ rest.1, rest.2 + 1)
      else
        let rest := ciwwReplaceAux search replace fuel (l.drop (i + 1))
        (l.take (i + 1) ++ rest.1, rest.2)

/-- `caseInsensitiveWholeWordReplace` from the source, paired with its
substitution count. -/
def caseInsensitiveWholeWordReplace (line search replace : Str) : Str × Nat :=
  ciwwReplaceAux search replace (line.length + 1) line

/-- `replaceInLine` from the source: empty search is the identity, otherwise
dispatch on the two flags. -/
def replaceInLine (line search replace : Str) (caseInsensitive wholeWord : Bool) : Str :=
  if search = [] then line
  else if ¬ caseInsensitive ∧ ¬ wholeWord then (goReplaceAll line search replace).1
  else if caseInsensitive ∧ ¬ wholeWord then (caseInsensitiveReplace line search replace).1
  else if wholeWord ∧ ¬ caseInsensitive then (wholeWordReplace line search replace).1
  else (caseInsensitiveWholeWordReplace line search replace).1

/-- The number of substitutions the `replaceInLine` dispatch actually performs
(the count component of the same loops whose string component is
`replaceInLine`). -/
def replaceInLineSubstitutions (line search replace : Str)
    (caseInsensitive wholeWord : Bool) : Nat :=
  if search = [] then 0
  else if ¬ caseInsensitive ∧ ¬ wholeWord then (goReplaceAll line search replace).2
  else if caseInsensitive ∧ ¬ wholeWord then (caseInsensitiveReplace line search replace).2
  else if wholeWord ∧ ¬ caseInsensitive then (wholeWordReplace line search replace).2
  else (caseInsensitiveWholeWordReplace line search replace).2

/-! ## Counting and whole-word search -/

/-- Loop of Go `strings.Count` for a non-empty pattern: count non-overlapping
occurrences left to right. -/
def countOccAux (search : Str) : Nat → Str → Nat
  | 0, _ => 0
  | fuel + 1, l =>
    match indexOf? l search with
    | none => 0
    | some i => countOccAux search fuel (l.drop (i + search.length)) + 1

/-- Loop of the whole-word branch of `countReplacements`: examine every
occurrence, always advancing the scan position by one character. -/
def countWWAux (text word : Str) : Nat → Nat → Nat
  | 0, _ => 0
  | fuel + 1, startIdx =>
    match indexOf? (text.drop startIdx) word with
    | none => 0
    | some idx =>
      let actualIdx := startIdx + idx
      let afterIdx := actualIdx + word.length
      (if (actualIdx = 0 ∨ isWordChar (text.getD (actualIdx - 1) ' ') = false) ∧
          (text.length ≤ afterIdx ∨ isWordChar (text.getD afterIdx ' ') = false)
       then 1 else 0) +
        countWWAux text word fuel (actualIdx + 1)

/-- `countReplacements` from the source. -/
def countReplacements (line search : Str) (caseInsensitive wholeWord : Bool) : Nat :=
  if search = [] then 0
  else
    let lineToCheck := if caseInsensitive then toLowerStr line else line
    let searchTerm := if caseInsensitive then toLowerStr search else search
    if ¬ wholeWord then countOccAux searchTerm (lineToCheck.length + 1) lineToCheck
    else countWWAux lineToCheck searchTerm (lineToCheck.length + 1) 0

/-- Loop of `containsWholeWord`: scan every occurrence from `startIdx`
onwards, accepting the first one whose neighbours are not word characters. -/
def cwwAux (text word : Str) : Nat → Nat → Bool
  | 0, _ => false
  | fuel + 1, startIdx =>
    match indexOf? (text.drop startIdx) word with
    | none => false
    | some idx =>
      let actualIdx := startIdx + idx
      let afterIdx := actualIdx + word.length
      if (actualIdx = 0 ∨ isWordChar (text.getD (actualIdx - 1) ' ') = false) ∧
          (text.length ≤ afterIdx ∨ isWordChar (text.getD afterIdx ' ') = false)
      then true
      else cwwAux text word fuel (actualIdx + 1)

/-- `containsWholeWord` from the source: empty needle matches nothing; a quick
substring test first, then the boundary-checking scan. -/
def containsWholeWord (text word : Str) : Bool :=
  if word = [] then false
  else if ¬ containsStr text word then false
  else cwwAux text word (text.length + 1) 0

/-! ## Multi-line content replacement -/

/-- `isMultiline` from the source: either pattern contains a newline. -/
def isMultiline (search replace : Str) : Bool :=
  containsStr search ['\n'] || containsStr replace ['\n']

/-- Go slice `content[a:b]`. -/
def sub (content : Str) (a b : Nat) : Str := (content.drop a).take (b - a)

/-- Scan backward from `i` to the previous newline (or the start), as the
exclude handling of `replaceContentMultiline` does. -/
def lineStartOf (content : Str) (i : Nat) : Nat :=
  i - ((content.take i).reverse.takeWhile (· ≠ '\n')).length

/-- Scan forward from `j` to the next newline (or the end). -/
def lineEndOf (content : Str) (j : Nat) : Nat :=
  j + ((content.drop j).takeWhile (· ≠ '\n')).length

/-- Exclude check of `replaceContentMultiline`: does the full line span of the
match contain any exclude pattern (lower-casing both sides when the
case-insensitive flag is set)? -/
def excludedSpan (content : Str) (matchStart matchEnd : Nat) (ci : Bool)
    (exclude : List Str) : Bool :=
  let spanningText := sub content (lineStartOf content matchStart) (lineEndOf content matchEnd)
  exclude.any fun excl =>
    if ci then containsStr (toLowerStr spanningText) (toLowerStr excl)
    else containsStr spanningText excl

/-- Record the original line indices `a..b` (inclusive) in the affected-line
set, modelled as a duplicate-free list (`map[int]bool` in the source). -/
def insertAffected (affected : List Nat) (a b : Nat) : List Nat :=
  (List.range' a (b - a + 1)).foldl
    (fun acc n => if n ∈ acc then acc else acc ++ [n]) affected

/-- Loop of `replaceContentMultiline`: scan the (optionally lower-cased)
content from `pos`, handling whole-word rejection (advance one character),
exclusion (copy the match through) and substitution (record affected lines).
As with the line-level loops, the wrapper supplies more fuel than the loop can
consume. -/
def rcmAux (content search replace : Str) (ci ww : Bool) (exclude : List Str) :
    Nat → Nat → Str → Nat → List Nat → Str × Nat × Nat
  | 0, pos, acc, reps, affected => (acc ++ content.drop pos, reps, affected.length)
  | fuel + 1, pos, acc, reps, affected =>
    let contentToSearch := if ci then toLowerStr content else content
    let searchTerm := if ci then toLowerStr search else search
    match indexOf? (contentToSearch.drop pos) searchTerm with
    | none => (acc ++ content.drop pos, reps, affected.length)
    | some idx =>
      let matchStart := pos + idx
      let matchEnd := matchStart + search.length
      if ww ∧ ¬ ((matchStart = 0 ∨ isWordChar (content.getD (matchStart - 1) ' ') = false) ∧
            (content.length ≤ matchEnd ∨ isWordChar (content.getD matchEnd ' ') = false)) then
        rcmAux content search replace ci ww exclude fuel (matchStart + 1)
          (acc ++ sub content pos (matchStart + 1)) reps affected
      else if excludedSpan content matchStart matchEnd ci exclude then
        rcmAux content search replace ci ww exclude fuel matchEnd
          (acc ++ sub content pos matchEnd) reps affected
      else
        let startLine := (content.take matchStart).count '\n'
        let matchNewlines := (sub content matchStart matchEnd).count '\n'
        rcmAux content search replace ci ww exclude fuel matchEnd
          (acc ++ sub content pos matchStart ++ replace) (reps + 1)
          (insertAffected affected startLine (startLine + matchNewlines))

/-- `replaceContentMultiline` from the source.  Returns the modified content,
the number of substitutions performed, and the number of distinct original
lines touched by a performed match. -/
def replaceContentMultiline (content search replace : Str) (ci ww : Bool)
    (exclude : List Str) : Str × Nat × Nat :=
  if search = [] then (content, 0, 0)
  else rcmAux content search replace ci ww exclude (content.length + 1) 0 [] 0 []

/-! ## File processing -/

/-- The request parameters consumed by the engine (the `Config` of the
source, restricted to the fields the engine reads). -/
structure Config where
  dirs : List Str := []
  search : Str := []
  replace : Str := []
  ext : Str := []
  exclude : List Str := []
  caseInsensitive : Bool := false
  wholeWord : Bool := false
  dryRun : Bool := false
  recursive : Bool := false

/-- Line-ending sniff of `replaceInFile`: scan the first 8192 bytes; a
`\r\n` pair before the first bare `\n` means CRLF, otherwise LF. -/
def detectLineEndingAux : Str → Str
  | c1 :: c2 :: rest =>
    if c1 = '\r' ∧ c2 = '\n' then ['\r', '\n']
    else if c1 = '\n' then ['\n']
    else detectLineEndingAux (c2 :: rest)
  | _ => ['\n']

/-- Detected line-ending style of a file's content. -/
def detectLineEnding (content : Str) : Str := detectLineEndingAux (content.take 8192)

/-- Split on `'\n'`; always returns at least one (possibly empty) piece. -/
def splitOnNl : Str → List Str
  | [] => [[]]
  | c :: rest =>
    if c = '\n' then [] :: splitOnNl rest
    else
      match splitOnNl rest with
      | [] => [[c]]
      | h :: t => (c :: h) :: t

/-- `dropCR` of `bufio.ScanLines`: strip one trailing carriage return. -/
def dropCR (l : Str) : Str := if l.getLast? = some '\r' then l.dropLast else l

/-- The list of lines `bufio.Scanner` yields for a file's content: split on
newlines, drop the empty piece a trailing newline produces, strip one
trailing `\r` per line. -/
def scanLines (content : Str) : List Str :=
  let ps := splitOnNl content
  (if ps.getLast? = some [] then ps.dropLast else ps).map dropCR

/-- Per-line exclude check of `replaceInFile` (case-respecting). -/
def lineExcluded (cfg : Config) (line lineToCheck : Str) : Bool :=
  cfg.exclude.any fun pat =>
    if cfg.caseInsensitive then containsStr lineToCheck (toLowerStr pat)
    else containsStr line pat

/-- Body of the per-line loop of `replaceInFile`: match presence check,
exclude check, then the actual replacement. -/
def processLine (cfg : Config) (line : Str) : Str :=
  let lineToCheck := if cfg.caseInsensitive then toLowerStr line else line
  let searchTerm := if cfg.caseInsensitive then toLowerStr cfg.search else cfg.search
  let found := if cfg.wholeWord then containsWholeWord lineToCheck searchTerm
    else containsStr lineToCheck searchTerm
  if found = false then line
  else if lineExcluded cfg line lineToCheck then line
  else replaceInLine line cfg.search cfg.replace cfg.caseInsensitive cfg.wholeWord

/-- One step of the per-line loop: record the rewritten line and, when it
differs from the original, bump the changed-line and replacement counters. -/
def processLinesStep (cfg : Config) (acc : List Str × Nat × Nat) (line : Str) :
    List Str × Nat × Nat :=
  let nl := processLine cfg line
  if nl ≠ line then
    (acc.1 ++ [nl], acc.2.1 + 1,
      acc.2.2 + countReplacements line cfg.search cfg.caseInsensitive cfg.wholeWord)
  else (acc.1 ++ [line], acc.2.1, acc.2.2)

/-- The per-line loop of `replaceInFile`: returns the modified lines, the
number of changed lines, and the total replacement count. -/
def processLines (cfg : Config) (lines : List Str) : List Str × Nat × Nat :=
  lines.foldl (processLinesStep cfg) ([], 0, 0)

/-- The content `writeFileAtomic` writes: lines joined by the line ending,
with one final line ending appended whenever there is at least one line. -/
def joinLE (le : Str) : List Str → Str
  | [] => []
  | [x] => x
  | x :: y :: xs => x ++ le ++ joinLE le (y :: xs)

/-- Rendered file content produced by the writer of `writeFileAtomic`. -/
def renderFile (le : Str) (lines : List Str) : Str :=
  joinLE le lines ++ if lines = [] then [] else le

/-! ## Atomic writes

`writeFileAtomic` and `writeFileAtomicBytes` are modelled as sequences of
steps over the target file's bytes plus a temp-file slot, with an explicit
failure-injection point `failAt`: step 0 is `CreateTemp`, 1 the write, 2
`Sync`, 3 `Close`, 4 `Chmod`, 5 `Rename`.  Every early return runs the
deferred cleanup, which removes the temp file because `success` is still
false; only the final return after the rename skips it. -/

/-- The slice of the filesystem an atomic write touches. -/
structure WFile where
  target : Option Str
  temp : Option Str
deriving DecidableEq

/-- `writeFileAtomicBytes` from the source with failure injection.
`readOnly` models the owner-write-bit check on an existing target. -/
def writeFileAtomicBytes (failAt : Option Nat) (readOnly : Bool) (st : WFile)
    (data : Str) : Except Unit Unit × WFile :=
  if st.target.isSome ∧ readOnly = true then (.error (), st)
  else if failAt = some 0 then (.error (), st)
  else
    let st1 : WFile := { st with temp := some [] }
    if failAt = some 1 then (.error (), { st1 with temp := none })
    else
      let st2 : WFile := { st1 with temp := st1.temp.map (· ++ data) }
      if failAt = some 2 then (.error (), { st2 with temp := none })
      else if failAt = some 3 then (.error (), { st2 with temp := none })
      else if failAt = some 4 then (.error (), { st2 with temp := none })
      else if failAt = some 5 then (.error (), { st2 with temp := none })
      else (.ok (), { target := st2.temp, temp := none })

/-- `writeFileAtomic` from the source with failure injection: identical
protocol, but the write phase renders the lines with the detected line
ending (separator between lines plus one final line ending when the file has
at least one line). -/
def writeFileAtomic (failAt : Option Nat) (readOnly : Bool) (st : WFile)
    (lines : List Str) (lineEnding : Str) : Except Unit Unit × WFile :=
  if st.target.isSome ∧ readOnly = true then (.error (), st)
  else if failAt = some 0 then (.error (), st)
  else
    let st1 : WFile := { st with temp := some [] }
    if failAt = some 1 then (.error (), { st1 with temp := none })
    else
      let st2 : WFile := { st1 with temp := st1.temp.map (· ++ renderFile lineEnding lines) }
      if failAt = some 2 then (.error (), { st2 with temp := none })
      else if failAt = some 3 then (.error (), { st2 with temp := none })
      else if failAt = some 4 then (.error (), { st2 with temp := none })
      else if failAt = some 5 then (.error (), { st2 with temp := none })
      else (.ok (), { target := st2.temp, temp := none })


/-- With no injected failure and a writable target, `writeFileAtomic`
commits the rendered lines and leaves no temp file. -/
theorem writeFileAtomic_ok (st : WFile) (lines : List Str) (le : Str) :
    writeFileAtomic none false st lines le =
      (.ok (), ⟨some (renderFile le lines), none⟩) := by
  simp [writeFileAtomic]

/-- With no injected failure and a writable target, `writeFileAtomicBytes`
commits the bytes and leaves no temp file. -/
theorem writeFileAtomicBytes_ok (st : WFile) (data : Str) :
    writeFileAtomicBytes none false st data = (.ok (), ⟨some data, none⟩) := by
  simp [writeFileAtomicBytes]

/-- A read-only existing target is rejected outright, before the temp file is
created. -/
theorem writeFileAtomic_readOnly (c : Str) (t : Option Str) (lines : List Str)
    (le : Str) :
    writeFileAtomic none true ⟨some c, t⟩ lines le = (.error (), ⟨some c, t⟩) := by
  simp [writeFileAtomic]

theorem writeFileAtomicBytes_readOnly (c : Str) (t : Option Str) (data : Str) :
    writeFileAtomicBytes none true ⟨some c, t⟩ data = (.error (), ⟨some c, t⟩) := by
  simp [writeFileAtomicBytes]

/-- CRLF normalization of `replaceInFileMultiline`: collapse `\r\n` to `\n`,
then expand every `\n` to `\r\n`. -/
def normalizeCRLF (p : Str) : Str :=
  (goReplaceAll (goReplaceAll p ['\r', '\n'] ['\n']).1 ['\n'] ['\r', '\n']).1

/-- Error `replaceInFile` reports when the rewrite cannot be committed (a
failed `writeFileAtomic`, e.g. a read-only target). -/
def writeFileError : Str := "failed to write file".toList

/-- `replaceInFileMultiline` from the source, on the file's content instead
of its path: detect CRLF, normalize the patterns, run the whole-content
replacement, and (outside a dry run) commit the new content through
`writeFileAtomicBytes`; a failed write turns the result into an error and
leaves the bytes untouched.  `readOnly` is the target's owner-write-bit state
the writer checks. -/
def replaceInFileMultilineCore (cfg : Config) (readOnly : Bool) (content : Str) :
    Except Str (Nat × Nat) × Str :=
  let lineEnding : Str := if containsStr content ['\r', '\n'] then ['\r', '\n'] else ['\n']
  let search := if lineEnding = ['\r', '\n'] then normalizeCRLF cfg.search else cfg.search
  let replace := if lineEnding = ['\r', '\n'] then normalizeCRLF cfg.replace else cfg.replace
  let res := replaceContentMultiline content search replace
    cfg.caseInsensitive cfg.wholeWord cfg.exclude
  if res.2.1 = 0 then (.ok (0, 0), content)
  else if cfg.dryRun = false then
    match writeFileAtomicBytes none readOnly ⟨some content, none⟩ res.1 with
    | (.error _, _) => (.error writeFileError, content)
    | (.ok _, st) => (.ok (res.2.2, res.2.1), st.target.getD content)
  else (.ok (res.2.2, res.2.1), content)

/-- Single-line path of `replaceInFile` on the file's content: sniff the line
ending, scan the lines, run the per-line loop, and (when something changed and
this is not a dry run) commit the modified lines through `writeFileAtomic`; a
failed write turns the result into an error and leaves the bytes
untouched. -/
def replaceInFileSingleCore (cfg : Config) (readOnly : Bool) (content : Str) :
    Except Str (Nat × Nat) × Str :=
  let lineEnding := detectLineEnding content
  let lines := scanLines content
  let res := processLines cfg lines
  if 0 < res.2.1 ∧ cfg.dryRun = false then
    match writeFileAtomic none readOnly ⟨some content, none⟩ res.1 lineEnding with
    | (.error _, _) => (.error writeFileError, content)
    | (.ok _, st) => (.ok (res.2.1, res.2.2), st.target.getD content)
  else (.ok (res.2.1, res.2.2), content)

/-- Error the single-line path reports when the file cannot be opened. -/
def openFileError : Str := ('o' :: "pen failed".toList)

/-- Error the multi-line path reports when the file cannot be read. -/
def readFileError : Str := ('r' :: "ead failed".toList)

/-- `replaceInFile` from the source, over the file's current bytes
(`none` when the file cannot be read) and the target's read-only state: the
search-equals-replace no-op guard runs before any I/O, then the multi-line or
single-line path runs, committing through the atomic writer.  Returns the
`(linesChanged, replacements)` outcome (or the I/O or write error) together
with the file's bytes after the call. -/
def replaceInFile (cfg : Config) (readOnly : Bool) (content : Option Str) :
    Except Str (Nat × Nat) × Option Str :=
  if cfg.search = cfg.replace then (.ok (0, 0), content)
  else if isMultiline cfg.search cfg.replace then
    match content with
    | none => (.error readFileError, none)
    | some c =>
      let r := replaceInFileMultilineCore cfg readOnly c
      (r.1, some r.2)
  else
    match content with
    | none => (.error openFileError, none)
    | some c =>
      let r := replaceInFileSingleCore cfg readOnly c
      (r.1, some r.2)

/-! ## Directory traversal

The filesystem is modelled as a directory-listing map (`none` when the
distinguishes a readable directory, a directory that stats but cannot be read
— `filepath.WalkDir` visits such a directory with a nil error and only then
sees the `ReadDir` failure — and a path that cannot be walked into at all:
missing, or actually a file) and a file-content map (`none` when the file
cannot be read).  Processing a file updates the content map; directory
listings never change, matching the code, which only ever rewrites existing
regular files in place. -/

/-- A directory entry as `os.ReadDir` reports it. -/
structure Entry where
  name : Str
  isDir : Bool
  isRegular : Bool
deriving DecidableEq

/-- What the filesystem reports for a path used as a directory. -/
inductive Listing where
  /-- A directory that can be read, with these entries. -/
  | entries (es : List Entry)
  /-- A directory that stats successfully but whose `ReadDir` fails
  (permission denied): `WalkDir` visits it with a nil error first. -/
  | denied
  /-- A path that cannot be walked into at all: missing, or actually a
  file (`WalkDir` then skips it without descending). -/
  | absent
deriving DecidableEq

/-- The filesystem state the traversal operates on. -/
structure FS where
  listing : Str → Listing
  content : Str → Option Str

/-- `filepath.Join dir name`. -/
def childPath (dir name : Str) : Str := dir ++ '/' :: name

/-- Update one file's bytes. -/
def setContent (fs : FS) (p c : Str) : FS :=
  { fs with content := fun q => if q = p then some c else fs.content q }

theorem setContent_listing (fs : FS) (p c : Str) :
    (setContent fs p c).listing = fs.listing := rfl

/-- Run `replaceInFile` against the filesystem: read the file's bytes, and
commit whatever bytes the call leaves behind.  The traversal model's files
are writable (`readOnly := false`); a read-only file would surface as just
another soft per-file write error. -/
def replaceInFileFS (cfg : Config) (fs : FS) (path : Str) :
    Except Str (Nat × Nat) × FS :=
  let r := replaceInFile cfg false (fs.content path)
  (r.1, match r.2 with
        | some c => setContent fs path c
        | none => fs)

/-- Per-file outcome (`FileModification` in the source). -/
structure FileModification where
  path : Str
  linesChanged : Nat
  replacements : Nat
deriving DecidableEq

/-- Per-directory outcome (`DirectoryResult` in the source). -/
structure DirectoryResult where
  dir : Str
  filesModified : Nat := 0
  linesChanged : Nat := 0
  totalReplacements : Nat := 0
  files : List FileModification := []
deriving DecidableEq

/-- The error `replaceInDirectory` returns when `os.ReadDir` fails. -/
def dirReadError : Str := "failed to read directory".toList

/-- Body of the entry loop of `replaceInDirectory`: skip subdirectories,
non-regular files and extension mismatches; process the file, warning (not
failing) when it errors; record it only when at least one line changed. -/
def dirStep (cfg : Config) (dir : Str) (acc : DirectoryResult × FS) (e : Entry) :
    DirectoryResult × FS :=
  if e.isDir then acc
  else if e.isRegular = false then acc
  else if cfg.ext ≠ [] ∧ ¬ cfg.ext.isSuffixOf e.name then acc
  else
    match replaceInFileFS cfg acc.2 (childPath dir e.name) with
    | (.error _, fs') => (acc.1, fs')
    | (.ok (lc, tr), fs') =>
      if 0 < lc then
        ({ acc.1 with
            files := acc.1.files ++ [⟨e.name, lc, tr⟩],
            filesModified := acc.1.filesModified + 1,
            linesChanged := acc.1.linesChanged + lc,
            totalReplacements := acc.1.totalReplacements + tr }, fs')
      else (acc.1, fs')

/-- `replaceInDirectory` from the source: listing failure is a hard error;
otherwise fold the entry loop over the listing. -/
def replaceInDirectory (cfg : Config) (fs : FS) (dir : Str) :
    Except Str DirectoryResult × FS :=
  match fs.listing dir with
  | .entries es =>
    let r := es.foldl (dirStep cfg dir) ({ dir := dir }, fs)
    (.ok r.1, r.2)
  | .denied => (.error dirReadError, fs)
  | .absent => (.error dirReadError, fs)

/-- The per-directory loop of `replaceInDirectories`: the first directory
error aborts, leaving later directories unprocessed. -/
def replaceInDirsGo (cfg : Config) (fs : FS) : List Str → Except Str (List DirectoryResult) × FS
  | [] => (.ok [], fs)
  | d :: rest =>
    match replaceInDirectory cfg fs d with
    | (.error e, fs') => (.error e, fs')
    | (.ok dr, fs') =>
      match replaceInDirsGo cfg fs' rest with
      | (.error e, fs'') => (.error e, fs'')
      | (.ok drs, fs'') => (.ok (dr :: drs), fs'')

/-- `filepath.WalkDir` as used by `collectDirectoriesRecursive`: a path that
cannot be statted (or is a file) is warned about and skipped; a directory
that stats is visited with a nil error and recorded (deduplicated) — even
when its `ReadDir` then fails, that error is only warned about — and a
readable directory's subdirectories are walked in turn.  `fuel` bounds the
recursion depth and is chosen larger than the tree's depth. -/
def walkDir (fs : FS) : Nat → Str → List Str → List Str
  | 0, _, acc => acc
  | fuel + 1, path, acc =>
    match fs.listing path with
    | .absent => acc
    | .denied => if path ∈ acc then acc else acc ++ [path]
    | .entries es =>
      let acc' := if path ∈ acc then acc else acc ++ [path]
      es.foldl
        (fun a e => if e.isDir then walkDir fs fuel (childPath path e.name) a else a) acc'

/-- `collectDirectoriesRecursive` from the source: walk every root,
collecting each directory once; errors during the walk never abort. -/
def collectDirectoriesRecursive (fs : FS) (fuel : Nat) (dirs : List Str) : List Str :=
  dirs.foldl (fun acc d => walkDir fs fuel d acc) []

/-- `replaceInDirectories` from the source, restricted to directory mode: in
recursive mode first expand the roots to all reachable directories, then
process every directory in order. -/
def replaceInDirectories (cfg : Config) (fs : FS) (walkFuel : Nat) :
    Except Str (List DirectoryResult) × FS :=
  let dirsToProcess :=
    if cfg.recursive then collectDirectoriesRecursive fs walkFuel cfg.dirs else cfg.dirs
  replaceInDirsGo cfg fs dirsToProcess

/-! ## Claim C1 -/

/-- C1: for every file state and every request whose search pattern equals
its replace pattern, `replaceInFile` returns zero lines changed, zero
replacements and no error, and leaves the file's bytes unchanged — even when
the file cannot be read or written at all, because the guard runs before any
I/O. -/
theorem C1_search_eq_replace_noop (cfg : Config) (ro : Bool) (content : Option Str)
    (h : cfg.search = cfg.replace) :
    replaceInFile cfg ro content = (.ok (0, 0), content) := by
  simp [replaceInFile, h]

/-- Witness for C1 at a concrete request and file. -/
theorem C1_search_eq_replace_noop_witness :
    ({ search := "x".toList, replace := "x".toList } : Config).search =
        ({ search := "x".toList, replace := "x".toList } : Config).replace ∧
      replaceInFile { search := "x".toList, replace := "x".toList } true
        (some "x y".toList) = (.ok (0, 0), some "x y".toList) :=
  ⟨rfl, C1_search_eq_replace_noop { search := "x".toList, replace := "x".toList }
    true (some "x y".toList) rfl⟩

/-! ## Claim C2

The source's `countReplacements` always advances the whole-word scan by one
character, even past an accepted occurrence, while `wholeWordReplace` resumes
after the full match; on overlapping occurrences the two disagree.  Without
the whole-word flag they agree in both case modes. -/

/-- In plain mode the substitution count of the replacement loop is exactly
the non-overlapping occurrence count of `strings.Count`. -/
theorem replaceAllAux_snd (s r : Str) (fuel : Nat) :
    ∀ l, (replaceAllAux s r fuel l).2 = countOccAux s fuel l := by
  induction fuel with
  | zero => intro l; rfl
  | succ n ih =>
    intro l
    simp only [replaceAllAux, countOccAux]
    cases h : indexOf? l s with
    | none => simp [h]
    | some i => simp [h, ih]

/-- In case-insensitive mode the substitution count is the non-overlapping
occurrence count of the lower-cased pattern in the lower-cased line. -/
theorem ciReplaceAux_snd (s r : Str) (fuel : Nat) :
    ∀ l, (ciReplaceAux s r fuel l).2 = countOccAux (toLowerStr s) fuel (toLowerStr l) := by
  induction fuel with
  | zero => intro l; rfl
  | succ n ih =>
    intro l
    simp only [ciReplaceAux, countOccAux]
    cases h : indexOf? (toLowerStr l) (toLowerStr s) with
    | none => simp [h]
    | some i =>
      simp only [h]
      have hlen : (toLowerStr s).length = s.length := toLowerStr_length s
      simp only [ih, ← toLowerStr_drop, hlen]

/-- Counterexample to C2 as stated: on line `"a a a"` with whole-word search
`"a a"`, the replacement loop performs one substitution (yielding `"X a"`)
but `countReplacements` reports two, because its scan also accepts the
overlapping occurrence the replacement loop consumed. -/
theorem C2_count_replace_disagreement :
    replaceInLine "a a a".toList "a a".toList "X".toList false true = "X a".toList ∧
      replaceInLineSubstitutions "a a a".toList "a a".toList "X".toList false true = 1 ∧
      countReplacements "a a a".toList "a a".toList false true = 2 :=
  ⟨by decide, by decide, by decide⟩

/-- C2 (amended): for every line, every non-empty search string and either
case-sensitivity flag, `countReplacements` equals the number of substitutions
`replaceInLine` performs, provided the whole-word flag is off; with the
whole-word flag, the counts can disagree on overlapping occurrences. -/
theorem C2_count_replace_agreement_no_whole_word (line search replace : Str)
    (ci : Bool) (hs : search ≠ []) :
    replaceInLineSubstitutions line search replace ci false =
      countReplacements line search ci false := by
  cases ci with
  | false =>
    simp only [replaceInLineSubstitutions, countReplacements, if_neg hs, goReplaceAll]
    simp [replaceAllAux_snd]
  | true =>
    simp only [replaceInLineSubstitutions, countReplacements, if_neg hs,
      caseInsensitiveReplace]
    simp [ciReplaceAux_snd, toLowerStr_length]

/-- Witness for the amended C2 at a concrete line. -/
theorem C2_count_replace_agreement_no_whole_word_witness :
    "ab".toList ≠ ([] : Str) ∧
      replaceInLineSubstitutions "xabyab".toList "ab".toList "Z".toList false false =
        countReplacements "xabyab".toList "ab".toList false false :=
  ⟨by decide, C2_count_replace_agreement_no_whole_word "xabyab".toList "ab".toList
    "Z".toList false (by decide)⟩

/-! ## Claim C3

The dry-run claim fails as stated: when the atomic write fails (a read-only
target, part_002:1306-1308), the non-dry run returns `(0, 0, error)` at
part_002:861-865 / 1215-1219 while the dry run — which never attempts the
write — returns the real counts with no error.  The counts agree exactly when
the write is not attempted or succeeds; the dry run's result never depends on
write permissions and always leaves the bytes unchanged. -/

/-- The per-line loop reads no field a dry run changes. -/
theorem processLines_dryRun (cfg : Config) (b : Bool) (ls : List Str) :
    processLines { cfg with dryRun := b } ls = processLines cfg ls := rfl

/-- A dry multi-line run (under any write permissions) returns the outcome of
a real run with a succeeding write, and hands back the original content. -/
theorem replaceInFileMultilineCore_dry (cfg : Config) (ro : Bool) (c : Str) :
    (replaceInFileMultilineCore { cfg with dryRun := true } ro c).1 =
        (replaceInFileMultilineCore { cfg with dryRun := false } false c).1 ∧
      (replaceInFileMultilineCore { cfg with dryRun := true } ro c).2 = c := by
  constructor <;>
    · simp only [replaceInFileMultilineCore, writeFileAtomicBytes_ok]
      split <;> split <;> split <;> simp

/-- A dry single-line run (under any write permissions) returns the outcome
of a real run with a succeeding write, and hands back the original content. -/
theorem replaceInFileSingleCore_dry (cfg : Config) (ro : Bool) (c : Str) :
    (replaceInFileSingleCore { cfg with dryRun := true } ro c).1 =
        (replaceInFileSingleCore { cfg with dryRun := false } false c).1 ∧
      (replaceInFileSingleCore { cfg with dryRun := true } ro c).2 = c := by
  constructor <;>
    · simp only [replaceInFileSingleCore, processLines_dryRun, writeFileAtomic_ok]
      by_cases h : 0 < (processLines cfg (scanLines c)).2.1
      · simp [h]
      · simp [h]

/-- Counterexample to C3 as stated: on a read-only file containing a match,
the dry run returns `(1, 1)` with no error while the real run fails the write
and returns an error — the `(linesChanged, replacements)` outcomes differ. -/
theorem C3_dry_run_divergence_on_readonly :
    replaceInFile { search := ['a'], replace := ['b'], dryRun := true } true
        (some "a\n".toList) = (.ok (1, 1), some "a\n".toList) ∧
      replaceInFile { search := ['a'], replace := ['b'], dryRun := false } true
        (some "a\n".toList) = (.error writeFileError, some "a\n".toList) :=
  ⟨by decide, by decide⟩

/-- C3 (amended): a dry run — whatever the target's write permissions, since
it never attempts the write — returns exactly the `(linesChanged,
replacements)` outcome the real run returns when its write succeeds (a
writable target), and leaves the file's bytes byte-for-byte unchanged; when
the real run's write fails it returns an error instead, so the counts are
dry-run-invariant only up to write failure. -/
theorem C3_dry_run_equivalence (cfg : Config) (ro : Bool) (content : Option Str) :
    (replaceInFile { cfg with dryRun := true } ro content).1 =
        (replaceInFile { cfg with dryRun := false } false content).1 ∧
      (replaceInFile { cfg with dryRun := true } ro content).2 = content := by
  by_cases h1 : cfg.search = cfg.replace
  · constructor <;> simp [replaceInFile, h1]
  · by_cases h2 : isMultiline cfg.search cfg.replace = true
    · cases content with
      | none => constructor <;> simp [replaceInFile, h1, h2]
      | some c =>
        have hm := replaceInFileMultilineCore_dry cfg ro c
        constructor <;> simp [replaceInFile, h1, h2, hm.1, hm.2]
    · cases content with
      | none => constructor <;> simp [replaceInFile, h1, h2]
      | some c =>
        have hs := replaceInFileSingleCore_dry cfg ro c
        constructor <;> simp [replaceInFile, h1, h2, hs.1, hs.2]

/-! ## Claim C4 -/

theorem drop_drop_add (l : Str) (a b : Nat) : (l.drop a).drop b = l.drop (a + b) := by
  rw [List.drop_drop, Nat.add_comm]

/-- The specification's notion of a whole-word occurrence of `word` in `text`
at position `i`: the word occurs literally there, and the characters
immediately before and after the occurrence (when they exist) are not ASCII
letters, digits or underscore. -/
def wholeWordAt (text word : Str) (i : Nat) : Prop :=
  word <+: text.drop i ∧
    (i = 0 ∨ isWordChar (text.getD (i - 1) ' ') = false) ∧
    (text.length ≤ i + word.length ∨ isWordChar (text.getD (i + word.length) ' ') = false)

/-- If the scanning loop of `containsWholeWord` accepts, some position at or
after the scan start is a whole-word occurrence. -/
theorem cwwAux_sound (text word : Str) (fuel : Nat) :
    ∀ startIdx, cwwAux text word fuel startIdx = true →
      ∃ i, startIdx ≤ i ∧ wholeWordAt text word i := by
  induction fuel with
  | zero => intro s h; simp [cwwAux] at h
  | succ n ih =>
    intro s h
    rw [cwwAux] at h
    cases hx : indexOf? (text.drop s) word with
    | none => rw [hx] at h; simp at h
    | some idx =>
      rw [hx] at h
      simp only at h
      split at h
      · rename_i hcond
        refine ⟨s + idx, by omega, ?_, hcond.1, hcond.2⟩
        have hp := indexOf?_some_occ hx
        rwa [drop_drop_add] at hp
      · obtain ⟨i, hi, hw⟩ := ih (s + idx + 1) h
        exact ⟨i, by omega, hw⟩

/-- If some position at or after the scan start is a whole-word occurrence
and the fuel covers the rest of the text, the scanning loop accepts. -/
theorem cwwAux_complete (text word : Str) (hw : word ≠ []) (i : Nat)
    (hww : wholeWordAt text word i) :
    ∀ fuel startIdx, startIdx ≤ i → text.length + 1 - startIdx ≤ fuel →
      cwwAux text word fuel startIdx = true := by
  have hi : i + word.length ≤ text.length := occ_length hw hww.1
  have hwl : 1 ≤ word.length := by
    cases word with
    | nil => exact absurd rfl hw
    | cons c t => simp
  intro fuel
  induction fuel with
  | zero =>
    intro s hs hf
    omega
  | succ n ih =>
    intro s hs hf
    have hocc : word <+: (text.drop s).drop (i - s) := by
      rw [drop_drop_add]
      have he : s + (i - s) = i := by omega
      rw [he]
      exact hww.1
    obtain ⟨j, hj, hx⟩ := indexOf?_of_occ hocc
    rw [cwwAux, hx]
    simp only
    split
    · rfl
    · rename_i hcond
      have hne : s + j ≠ i := by
        intro he
        exact hcond (by rw [he]; exact ⟨hww.2.1, hww.2.2⟩)
      exact ih (s + j + 1) (by omega) (by omega)

/-- C4: `containsWholeWord haystack needle` is true exactly when the needle
is non-empty and occurs somewhere in the haystack with non-word characters
(or nothing) on both sides; in particular an empty needle never matches. -/
theorem C4_containsWholeWord_iff (text word : Str) :
    containsWholeWord text word = true ↔ word ≠ [] ∧ ∃ i, wholeWordAt text word i := by
  unfold containsWholeWord
  by_cases hw : word = []
  · simp [hw]
  · simp only [if_neg hw]
    by_cases hc : containsStr text word = true
    · simp only [hc, not_true, if_neg (by simp : ¬ (False : Prop))]
      constructor
      · intro h
        obtain ⟨i, _, hww⟩ := cwwAux_sound text word (text.length + 1) 0 h
        exact ⟨hw, i, hww⟩
      · rintro ⟨-, i, hww⟩
        exact cwwAux_complete text word hw i hww (text.length + 1) 0 (by omega) (by omega)
    · have hc' : containsStr text word = false := by
        cases hcc : containsStr text word
        · rfl
        · exact absurd hcc hc
      simp only [hc']
      constructor
      · intro h
        simp at h
      · rintro ⟨-, i, hww⟩
        exact absurd ((containsStr_iff_occ text word).mpr ⟨i, hww.1⟩) hc

/-! ## Claim C5 -/

/-- C5: on content `"aaa\nbbb\nccc\n"` with search `"aaa\nbbb"` and replace
`"xxx"`, `replaceContentMultiline` yields `"xxx\nccc\n"`, one substitution,
and two distinct affected original lines (the substitution count and the
affected-line count differ). -/
theorem C5_multiline_span_counting :
    replaceContentMultiline "aaa\nbbb\nccc\n".toList "aaa\nbbb".toList "xxx".toList
      false false [] = ("xxx\nccc\n".toList, 1, 2) := by
  decide

/-! ## Claim C6 -/

/-- C6: with exclude `["SKIP"]`, the first occurrence of `"aaa\nbbb"` (whose
expanded line span contains `"SKIP"`) is copied through unchanged and only the
second occurrence is replaced: exactly one replacement. -/
theorem C6_exclude_scoping_multiline :
    replaceContentMultiline "aaa\nbbb SKIP\naaa\nbbb\n".toList "aaa\nbbb".toList
      "xxx".toList false false ["SKIP".toList] = ("aaa\nbbb SKIP\nxxx\n".toList, 1, 2) := by
  decide

/-! ## Claim C7

The round-trip claim fails as stated: occurrences of `replace` already
present in the line (or formed by juxtaposition) are picked up by the reverse
replacement.  It holds once no character of `replace` occurs in the line. -/

/-- Reassembling a line around an occurrence of `s` at position `i`. -/
theorem take_occ_reconstruct {l s : Str} {i : Nat} (h : s <+: l.drop i) :
    l.take i ++ s ++ l.drop (i + s.length) = l := by
  obtain ⟨u, hu⟩ := h
  have h2 : l.drop (i + s.length) = u := by
    rw [← drop_drop_add, ← hu]
    exact List.drop_left s u
  rw [h2, List.append_assoc, hu, List.take_append_drop]

/-- The fuelled replacement loop is fuel-independent once the fuel exceeds
the line length. -/
theorem replaceAllAux_fuel_eq (s r : Str) (hs : s ≠ []) :
    ∀ f₁ f₂ l, l.length < f₁ → l.length < f₂ →
      replaceAllAux s r f₁ l = replaceAllAux s r f₂ l := by
  intro f₁
  induction f₁ with
  | zero =>
    intro f₂ l h1 h2
    omega
  | succ n ih =>
    intro f₂ l h1 h2
    cases f₂ with
    | zero => omega
    | succ m =>
      simp only [replaceAllAux]
      cases hx : indexOf? l s with
      | none => simp [hx]
      | some i =>
        have hsl : 0 < s.length := List.length_pos.mpr hs
        have hil := indexOf?_some_length hs hx
        have hdl : (l.drop (i + s.length)).length = l.length - (i + s.length) :=
          List.length_drop ..
        simp only [hx]
        rw [ih m (l.drop (i + s.length)) (by omega) (by omega)]

/-- A replacement whose pattern shares no character with the line is the
identity. -/
theorem goReplaceAll_of_not_mem {l r s : Str} (hr : r ≠ [])
    (h : ∀ c ∈ r, c ∉ l) : goReplaceAll l r s = (l, 0) := by
  rw [goReplaceAll]
  simp only [replaceAllAux]
  rw [indexOf?_none_of_not_mem hr h]

/-- In `A ++ r ++ X` where every character of `A` comes from a string `l`
sharing no character with `r`, the first occurrence of `r` is exactly at
`A.length`. -/
theorem indexOf?_append_embedded {A r X l : Str} (hr : r ≠ [])
    (hmem : ∀ c ∈ r, c ∉ l) (hA : ∀ c ∈ A, c ∈ l) :
    indexOf? (A ++ r ++ X) r = some A.length := by
  apply indexOf?_eq_some_of
  · rw [List.append_assoc, List.drop_left]
    exact ⟨X, rfl⟩
  · intro j hj hpre
    obtain ⟨c, r', rfl⟩ := List.exists_cons_of_ne_nil hr
    obtain ⟨u, hu⟩ := hpre
    have hd : (A ++ (c :: r') ++ X).drop j = c :: (r' ++ u) := by
      rw [← hu]
      simp
    have hhead : (A ++ (c :: r') ++ X)[j]? = some c := by
      have := List.head?_drop (A ++ (c :: r') ++ X) j
      rw [hd] at this
      exact this.symm
    rw [List.append_assoc, List.getElem?_append_left hj] at hhead
    exact hmem c (by simp) (hA c (List.getElem?_mem hhead))

/-- Core of the amended round trip: applying the reverse replacement to the
result of the forward replacement restores the line, provided `replace` is
non-empty and shares no character with the line. -/
theorem roundtrip_aux (s r : Str) (hs : s ≠ []) (hr : r ≠ []) :
    ∀ fuel l, l.length < fuel → (∀ c ∈ r, c ∉ l) →
      (goReplaceAll (replaceAllAux s r fuel l).1 r s).1 = l := by
  intro fuel
  induction fuel with
  | zero =>
    intro l h1 h2
    omega
  | succ n ih =>
    intro l hlen hmem
    have hsl : 0 < s.length := List.length_pos.mpr hs
    have hrl : 0 < r.length := List.length_pos.mpr hr
    simp only [replaceAllAux]
    cases hx : indexOf? l s with
    | none =>
      simp only [hx]
      rw [goReplaceAll_of_not_mem hr hmem]
    | some i =>
      simp only [hx]
      have hil := indexOf?_some_length hs hx
      have hocc := indexOf?_some_occ hx
      have hmemR : ∀ c ∈ r, c ∉ l.drop (i + s.length) :=
        fun c hc hmm => hmem c hc (List.drop_subset _ _ hmm)
      have hRlen : (l.drop (i + s.length)).length < n := by
        have := List.length_drop (i + s.length) l
        omega
      have hA : ∀ c ∈ l.take i, c ∈ l := fun c hc => List.take_subset _ _ hc
      have htl : (l.take i).length = i := by
        rw [List.length_take]
        omega
      rw [goReplaceAll]
      simp only [replaceAllAux]
      rw [indexOf?_append_embedded hr hmem hA]
      simp only
      rw [htl]
      have hTake : (l.take i ++ r ++ (replaceAllAux s r n (l.drop (i + s.length))).1).take i =
          l.take i := by
        rw [List.append_assoc]
        exact List.take_left' htl
      have hDrop : (l.take i ++ r ++ (replaceAllAux s r n (l.drop (i + s.length))).1).drop
          (i + r.length) = (replaceAllAux s r n (l.drop (i + s.length))).1 := by
        apply List.drop_left'
        simp [htl]
      rw [hTake, hDrop]
      have hBig : (replaceAllAux s r n (l.drop (i + s.length))).1.length <
          (l.take i ++ r ++ (replaceAllAux s r n (l.drop (i + s.length))).1).length := by
        simp [htl]
        omega
      rw [replaceAllAux_fuel_eq r s hr _
        ((replaceAllAux s r n (l.drop (i + s.length))).1.length + 1) _ hBig (by omega)]
      have hInner := ih (l.drop (i + s.length)) hRlen hmemR
      rw [goReplaceAll] at hInner
      rw [hInner]
      exact take_occ_reconstruct hocc

/-- Counterexample to C7 as stated: with line `"ab"`, search `"a"`, replace
`"b"` (and `"b"` not containing `"a"`), the round trip yields `"aa"`, not the
original line, because the reverse pass also rewrites the line's own `"b"`. -/
theorem C7_roundtrip_fails :
    containsStr "b".toList "a".toList = false ∧
      replaceInLine (replaceInLine "ab".toList "a".toList "b".toList false false)
          "b".toList "a".toList false false = "aa".toList ∧
      "aa".toList ≠ "ab".toList :=
  ⟨by decide, by decide, by decide⟩

/-- Plain-mode dispatch of `replaceInLine` (both flags off). -/
theorem replaceInLine_plain (line search replace : Str) :
    replaceInLine line search replace false false =
      if search = [] then line else (goReplaceAll line search replace).1 := by
  rw [replaceInLine]
  by_cases hs : search = []
  · simp [hs]
  · simp [hs]

/-- C7 (amended): if `replace` is non-empty, does not contain `search`, and no
character of `replace` occurs in the line, then replacing `search → replace`
and then `replace → search` on the result reproduces the original line
exactly. -/
theorem C7_roundtrip (line search replace : Str) (hr : replace ≠ [])
    (_hnc : containsStr replace search = false)
    (hdisj : ∀ c ∈ replace, c ∉ line) :
    replaceInLine (replaceInLine line search replace false false)
      replace search false false = line := by
  rw [replaceInLine_plain, replaceInLine_plain, if_neg hr]
  by_cases hs : search = []
  · rw [if_pos hs]
    simp [goReplaceAll_of_not_mem hr hdisj]
  · rw [if_neg hs]
    exact roundtrip_aux search replace hs hr (line.length + 1) line (by omega) hdisj

/-- Witness for the amended C7 at a concrete line. -/
theorem C7_roundtrip_witness :
    ("Z".toList ≠ ([] : Str) ∧ containsStr "Z".toList "a".toList = false ∧
        ∀ c ∈ "Z".toList, c ∉ "xay".toList) ∧
      replaceInLine (replaceInLine "xay".toList "a".toList "Z".toList false false)
          "Z".toList "a".toList false false = "xay".toList :=
  ⟨⟨by decide, by decide, by decide⟩,
    C7_roundtrip "xay".toList "a".toList "Z".toList (by decide) (by decide) (by decide)⟩

/-! ## Claim C9 -/

/-- C9: if an atomic write (either variant) fails after temp-file creation
and before the final rename, the target file's bytes are exactly as they were
before the call and no temp file remains; on success no temp artifact remains
either. -/
theorem C9_atomic_write_failure (failAt : Option Nat) (k : Nat) (ro : Bool)
    (st : WFile) (data : Str) (lines : List Str) (le : Str)
    (hro : ¬ (st.target.isSome ∧ ro = true)) :
    (failAt = some k → 1 ≤ k → k ≤ 4 →
      writeFileAtomicBytes failAt ro st data = (.error (), ⟨st.target, none⟩) ∧
        writeFileAtomic failAt ro st lines le = (.error (), ⟨st.target, none⟩)) ∧
      (failAt = none →
        writeFileAtomicBytes failAt ro st data = (.ok (), ⟨some data, none⟩) ∧
          writeFileAtomic failAt ro st lines le =
            (.ok (), ⟨some (renderFile le lines), none⟩)) := by
  constructor
  · rintro rfl hk1 hk4
    interval_cases k <;>
      constructor <;> simp [writeFileAtomicBytes, writeFileAtomic, hro]
  · rintro rfl
    constructor <;> simp [writeFileAtomicBytes, writeFileAtomic, hro]

/-- Witness for C9: a failure injected at the sync step leaves the old bytes
and no temp file; a failure-free run commits the rendered lines and leaves no
temp file. -/
theorem C9_atomic_write_failure_witness :
    writeFileAtomicBytes (some 2) false ⟨some "old".toList, none⟩ "new".toList =
        (.error (), ⟨some "old".toList, none⟩) ∧
      writeFileAtomic none false ⟨some "old".toList, none⟩ ["x".toList] "\n".toList =
        (.ok (), ⟨some "x\n".toList, none⟩) := by
  constructor
  · exact ((C9_atomic_write_failure (some 2) 2 false ⟨some "old".toList, none⟩
      "new".toList ["x".toList] "\n".toList (by decide)).1 rfl (by decide) (by decide)).1
  · have h := ((C9_atomic_write_failure none 0 false ⟨some "old".toList, none⟩
      "new".toList ["x".toList] "\n".toList (by decide)).2 rfl).2
    have hr : renderFile "\n".toList ["x".toList] = "x\n".toList := by decide
    rw [hr] at h
    exact h

/-! ## Claim C8

In non-recursive mode a directory that cannot be listed aborts the whole
operation and later directories are untouched, while per-file failures are
soft.  In recursive mode the picture is split: `collectDirectoriesRecursive`
only warns about a root it cannot stat (or that is a file) and drops it, so
such a root does not abort — but a permission-denied directory (statable,
unreadable) is visited by `WalkDir` with a nil error and collected before the
`ReadDir` failure is swallowed, and the per-directory pass then aborts on
it. -/

theorem replaceInFileFS_listing (cfg : Config) (fs : FS) (p : Str) :
    (replaceInFileFS cfg fs p).2.listing = fs.listing := by
  rw [replaceInFileFS]
  cases (replaceInFile cfg false (fs.content p)).2 <;> rfl

theorem dirStep_listing (cfg : Config) (dir : Str) (acc : DirectoryResult × FS)
    (e : Entry) : (dirStep cfg dir acc e).2.listing = acc.2.listing := by
  rw [dirStep]
  split
  · rfl
  · split
    · rfl
    · split
      · rfl
      · rcases hr : replaceInFileFS cfg acc.2 (childPath dir e.name) with ⟨res, fs'⟩
        have hl : fs'.listing = acc.2.listing := by
          have h0 := replaceInFileFS_listing cfg acc.2 (childPath dir e.name)
          rw [hr] at h0
          exact h0
        rcases res with e' | ⟨lc, tr⟩
        · simpa using hl
        · by_cases h0 : 0 < lc
          · simpa [h0] using hl
          · simpa [h0] using hl

theorem foldl_dirStep_listing (cfg : Config) (dir : Str) (entries : List Entry) :
    ∀ acc : DirectoryResult × FS,
      ((entries.foldl (dirStep cfg dir) acc).2).listing = acc.2.listing := by
  induction entries with
  | nil => intro acc; rfl
  | cons e t ih =>
    intro acc
    rw [List.foldl_cons, ih, dirStep_listing]

theorem replaceInDirectory_listing (cfg : Config) (fs : FS) (d : Str) :
    (replaceInDirectory cfg fs d).2.listing = fs.listing := by
  rw [replaceInDirectory]
  cases h : fs.listing d with
  | entries es => exact foldl_dirStep_listing cfg d es ({ dir := d }, fs)
  | denied => rfl
  | absent => rfl

/-- A readable directory never produces a directory-level error: failures on
individual files inside it are absorbed by the entry loop. -/
theorem replaceInDirectory_ok (cfg : Config) (fs : FS) (d : Str) (es : List Entry)
    (h : fs.listing d = .entries es) :
    ∃ dr fs', replaceInDirectory cfg fs d = (.ok dr, fs') := by
  rw [replaceInDirectory, h]
  exact ⟨_, _, rfl⟩

/-- An unreadable directory (denied or absent) is a hard error. -/
theorem replaceInDirectory_error (cfg : Config) (fs : FS) (d : Str)
    (h : ∀ es, fs.listing d ≠ Listing.entries es) :
    replaceInDirectory cfg fs d = (.error dirReadError, fs) := by
  rw [replaceInDirectory]
  cases hx : fs.listing d with
  | entries es => exact absurd hx (h es)
  | denied => rfl
  | absent => rfl

/-- The first unlistable directory aborts the per-directory loop with the
directory-read error, leaving the filesystem exactly as it was after the
directories before it. -/
theorem replaceInDirsGo_abort (cfg : Config) (d : Str) (post : List Str) :
    ∀ (pre : List Str) (fs : FS),
      (∀ p ∈ pre, ∃ es, fs.listing p = Listing.entries es) →
      (∀ es, fs.listing d ≠ Listing.entries es) →
      replaceInDirsGo cfg fs (pre ++ d :: post) =
        (.error dirReadError, (replaceInDirsGo cfg fs pre).2) := by
  intro pre
  induction pre with
  | nil =>
    intro fs hpre hd
    simp only [List.nil_append, replaceInDirsGo]
    rw [replaceInDirectory_error cfg fs d hd]
  | cons p pre' ih =>
    intro fs hpre hd
    obtain ⟨es, hes⟩ := hpre p (by simp)
    obtain ⟨dr, fs1, hp⟩ := replaceInDirectory_ok cfg fs p es hes
    have hlist1 : fs1.listing = fs.listing := by
      have h0 := replaceInDirectory_listing cfg fs p
      rw [hp] at h0
      exact h0
    have hpre' : ∀ q ∈ pre', ∃ es', fs1.listing q = Listing.entries es' := by
      intro q hq
      rw [hlist1]
      exact hpre q (by simp [hq])
    have hd1 : ∀ es', fs1.listing d ≠ Listing.entries es' := by
      rw [hlist1]
      exact hd
    have hih := ih fs1 hpre' hd1
    rw [List.cons_append, replaceInDirsGo, hp]
    dsimp only
    rw [hih]
    rcases hrec : replaceInDirsGo cfg fs1 pre' with ⟨res, fsr⟩
    rw [replaceInDirsGo, hp]
    dsimp only
    rw [hrec]
    cases res <;> rfl

/-- C8 (amended): (i) in non-recursive mode, an unlistable directory aborts
the whole multi-directory operation with an error and the filesystem is left
exactly as after the directories preceding it — later directories are
untouched; (ii) a readable directory never errors, so per-file failures are
soft; (iii) a file whose bytes cannot be read contributes nothing and leaves
the filesystem unchanged, and the entry loop continues; (iv) in recursive
mode, a root that cannot be statted (or is a file) is skipped by the
collection walk rather than aborting; (v) but a permission-denied directory
is collected by the walk and the per-directory pass errors on it, so (vi) a
recursive operation on such a root still aborts. -/
theorem C8_directory_error_handling (cfg : Config) (fs : FS) (walkFuel : Nat)
    (d : Str) (pre post : List Str) :
    (cfg.recursive = false → cfg.dirs = pre ++ d :: post →
        (∀ p ∈ pre, ∃ es, fs.listing p = Listing.entries es) →
        (∀ es, fs.listing d ≠ Listing.entries es) →
        (replaceInDirectories cfg fs walkFuel).1 = .error dirReadError ∧
          (replaceInDirectories cfg fs walkFuel).2 = (replaceInDirsGo cfg fs pre).2) ∧
      (∀ d' es, fs.listing d' = Listing.entries es →
        ∃ dr fs', replaceInDirectory cfg fs d' = (.ok dr, fs')) ∧
      (∀ dir dr e, e.isDir = false → e.isRegular = true →
        fs.content (childPath dir e.name) = none →
        dirStep cfg dir (dr, fs) e = (dr, fs)) ∧
      (∀ fuel d' acc, fs.listing d' = .absent → walkDir fs (fuel + 1) d' acc = acc) ∧
      (∀ fuel d' acc, fs.listing d' = .denied →
        walkDir fs (fuel + 1) d' acc = (if d' ∈ acc then acc else acc ++ [d']) ∧
          (replaceInDirectory cfg fs d').1 = .error dirReadError) ∧
      (∀ fuel rt, cfg.recursive = true → cfg.dirs = [rt] → fs.listing rt = .denied →
        (replaceInDirectories cfg fs (fuel + 1)).1 = .error dirReadError) := by
  refine ⟨?_, ?_, ?_, ?_, ?_, ?_⟩
  · intro hrec hdirs hpre hd
    have hrw : replaceInDirectories cfg fs walkFuel =
        (.error dirReadError, (replaceInDirsGo cfg fs pre).2) := by
      rw [replaceInDirectories, hrec]
      simp only [Bool.false_eq_true, if_false]
      rw [hdirs]
      exact replaceInDirsGo_abort cfg d post pre fs hpre hd
    rw [hrw]
    exact ⟨rfl, rfl⟩
  · intro d' es h
    exact replaceInDirectory_ok cfg fs d' es h
  · intro dir dr e hd hr hc
    rw [dirStep]
    rw [if_neg (by simp [hd]), if_neg (by simp [hr])]
    by_cases hext : cfg.ext ≠ [] ∧ ¬ cfg.ext.isSuffixOf e.name
    · rw [if_pos hext]
    · rw [if_neg hext]
      have hfile : replaceInFileFS cfg fs (childPath dir e.name) =
          ((replaceInFile cfg false none).1, fs) := by
        rw [replaceInFileFS, hc]
        rcases hrf : (replaceInFile cfg false none).2 with - | c
        · rfl
        · -- replaceInFile on a missing file never produces bytes
          exfalso
          rw [replaceInFile] at hrf
          by_cases hsr : cfg.search = cfg.replace
          · simp [hsr] at hrf
          · by_cases hml : isMultiline cfg.search cfg.replace = true
            · simp [hsr, hml] at hrf
            · simp [hsr, hml] at hrf
      rw [hfile]
      rw [replaceInFile]
      by_cases hsr : cfg.search = cfg.replace
      · simp [hsr]
      · by_cases hml : isMultiline cfg.search cfg.replace = true
        · simp [hsr, hml]
        · simp [hsr, hml]
  · intro fuel d' acc h
    rw [walkDir, h]
  · intro fuel d' acc h
    constructor
    · rw [walkDir, h]
    · rw [replaceInDirectory, h]
  · intro fuel rt hrec hdirs hden
    have hcol : collectDirectoriesRecursive fs (fuel + 1) [rt] = [rt] := by
      rw [collectDirectoriesRecursive]
      simp only [List.foldl_cons, List.foldl_nil]
      rw [walkDir, hden]
      simp
    rw [replaceInDirectories, hrec]
    simp only [if_true]
    rw [hdirs, hcol, replaceInDirsGo,
      replaceInDirectory_error cfg fs rt (by rw [hden]; intro es h; exact Listing.noConfusion h)]

/-- Counterexample to C8 as stated: in recursive mode, with roots
`["bad", "d2"]` where `"bad"` is missing, the operation does not abort — it
succeeds and still rewrites the file under `"d2"`. -/
theorem C8_recursive_unlistable_no_abort :
    (replaceInDirectories
        { dirs := ["bad".toList, "d2".toList], search := ['a'], replace := ['b'],
          recursive := true }
        ⟨fun p => if p = "d2".toList
            then .entries [⟨"f.txt".toList, false, true⟩] else .absent,
         fun p => if p = "d2/f.txt".toList then some "a\n".toList else none⟩ 2).1.isOk =
        true ∧
      (replaceInDirectories
        { dirs := ["bad".toList, "d2".toList], search := ['a'], replace := ['b'],
          recursive := true }
        ⟨fun p => if p = "d2".toList
            then .entries [⟨"f.txt".toList, false, true⟩] else .absent,
         fun p => if p = "d2/f.txt".toList then some "a\n".toList else none⟩ 2).2.content
          "d2/f.txt".toList = some "b\n".toList :=
  ⟨by decide, by decide⟩

/-- Witness for the amended C8: in non-recursive mode the missing second
directory aborts the operation after the first directory was processed, and
in recursive mode a permission-denied root still aborts. -/
theorem C8_directory_error_handling_witness :
    (replaceInDirectories
        { dirs := ["d1".toList, "bad".toList], search := ['a'], replace := ['b'] }
        ⟨fun p => if p = "d1".toList
            then .entries [⟨"f.txt".toList, false, true⟩] else .absent,
         fun p => if p = "d1/f.txt".toList then some "a b\n".toList else none⟩ 1).1 =
        .error dirReadError ∧
      (replaceInDirectories
        { dirs := ["locked".toList], search := ['a'], replace := ['b'],
          recursive := true }
        ⟨fun _ => .denied, fun _ => none⟩ 1).1 = .error dirReadError := by
  constructor
  · exact ((C8_directory_error_handling
      { dirs := ["d1".toList, "bad".toList], search := ['a'], replace := ['b'] }
      ⟨fun p => if p = "d1".toList
          then .entries [⟨"f.txt".toList, false, true⟩] else .absent,
       fun p => if p = "d1/f.txt".toList then some "a b\n".toList else none⟩ 1
      "bad".toList ["d1".toList] []).1 rfl rfl
      (by
        intro p hp
        rcases List.mem_singleton.mp hp with rfl
        exact ⟨[⟨"f.txt".toList, false, true⟩], by decide⟩)
      (by
        intro es h
        have hb : (⟨fun p => if p = "d1".toList
              then Listing.entries [⟨"f.txt".toList, false, true⟩]
              else Listing.absent,
            fun p => if p = "d1/f.txt".toList then some "a b\n".toList else none⟩ :
              FS).listing "bad".toList = Listing.absent := by decide
        rw [hb] at h
        exact Listing.noConfusion h)).1
  · exact (C8_directory_error_handling
      { dirs := ["locked".toList], search := ['a'], replace := ['b'],
        recursive := true }
      ⟨fun _ => .denied, fun _ => none⟩ 1 "locked".toList [] []).2.2.2.2.2 0
      "locked".toList rfl rfl rfl

/-! ## Claim C10

After a non-dry-run single-line change, `writeFileAtomic` always appends one
final line ending, so the rewritten file always ends with the detected line
ending and a file that lacked a trailing newline gains one.  But "exactly
one" fails when the file's last scanned line is empty (a file already ending
in a blank line): the rewritten bytes then end with two line endings. -/

theorem splitOnNl_ne_nil (c : Str) : splitOnNl c ≠ [] := by
  induction c with
  | nil => simp [splitOnNl]
  | cons a t ih =>
    rw [splitOnNl]
    split
    · simp
    · cases h : splitOnNl t with
      | nil => simp
      | cons x xs => simp

theorem splitOnNl_no_nl (c : Str) : ∀ p ∈ splitOnNl c, '\n' ∉ p := by
  induction c with
  | nil =>
    intro p hp
    rw [splitOnNl] at hp
    rcases List.mem_singleton.mp hp with rfl
    simp
  | cons a t ih =>
    intro p hp
    rw [splitOnNl] at hp
    by_cases ha : a = '\n'
    · rw [if_pos ha] at hp
      rcases List.mem_cons.mp hp with rfl | hm
      · simp
      · exact ih p hm
    · rw [if_neg ha] at hp
      cases h : splitOnNl t with
      | nil => exact absurd h (splitOnNl_ne_nil t)
      | cons x xs =>
        rw [h] at hp
        rcases List.mem_cons.mp hp with rfl | hm
        · intro hmm
          rcases List.mem_cons.mp hmm with he | hx
          · exact ha he.symm
          · exact ih x (by rw [h]; simp) hx
        · exact ih p (by rw [h]; simp [hm])

/-- Scanned lines never contain a newline character. -/
theorem scanLines_no_nl (c : Str) : ∀ p ∈ scanLines c, '\n' ∉ p := by
  intro p hp
  simp only [scanLines] at hp
  obtain ⟨q, hq, rfl⟩ := List.mem_map.mp hp
  have hq' : q ∈ splitOnNl c := by
    by_cases h : (splitOnNl c).getLast? = some []
    · rw [if_pos h] at hq
      exact List.dropLast_subset _ hq
    · rw [if_neg h] at hq
      exact hq
  have hnl := splitOnNl_no_nl c q hq'
  rw [dropCR]
  split
  · intro hm
    exact hnl (List.dropLast_subset _ hm)
  · exact hnl

theorem replaceAllAux_fst_mem (s r : Str) (fuel : Nat) :
    ∀ l c, c ∈ (replaceAllAux s r fuel l).1 → c ∈ l ∨ c ∈ r := by
  induction fuel with
  | zero => intro l c h; exact Or.inl h
  | succ n ih =>
    intro l c h
    rw [replaceAllAux] at h
    cases hx : indexOf? l s with
    | none => rw [hx] at h; exact Or.inl h
    | some i =>
      rw [hx] at h
      simp only at h
      rcases List.mem_append.mp h with h1 | h2
      · rcases List.mem_append.mp h1 with h3 | h4
        · exact Or.inl (List.take_subset _ _ h3)
        · exact Or.inr h4
      · rcases ih _ c h2 with h5 | h6
        · exact Or.inl (List.drop_subset _ _ h5)
        · exact Or.inr h6

theorem ciReplaceAux_fst_mem (s r : Str) (fuel : Nat) :
    ∀ l c, c ∈ (ciReplaceAux s r fuel l).1 → c ∈ l ∨ c ∈ r := by
  induction fuel with
  | zero => intro l c h; exact Or.inl h
  | succ n ih =>
    intro l c h
    rw [ciReplaceAux] at h
    cases hx : indexOf? (toLowerStr l) (toLowerStr s) with
    | none => rw [hx] at h; exact Or.inl h
    | some i =>
      rw [hx] at h
      simp only at h
      rcases List.mem_append.mp h with h1 | h2
      · rcases List.mem_append.mp h1 with h3 | h4
        · exact Or.inl (List.take_subset _ _ h3)
        · exact Or.inr h4
      · rcases ih _ c h2 with h5 | h6
        · exact Or.inl (List.drop_subset _ _ h5)
        · exact Or.inr h6

theorem wwReplaceAux_fst_mem (s r : Str) (fuel : Nat) :
    ∀ l c, c ∈ (wwReplaceAux s r fuel l).1 → c ∈ l ∨ c ∈ r := by
  induction fuel with
  | zero => intro l c h; exact Or.inl h
  | succ n ih =>
    intro l c h
    rw [wwReplaceAux] at h
    cases hx : indexOf? l s with
    | none => rw [hx] at h; exact Or.inl h
    | some i =>
      rw [hx] at h
      simp only at h
      split at h
      · rcases List.mem_append.mp h with h1 | h2
        · rcases List.mem_append.mp h1 with h3 | h4
          · exact Or.inl (List.take_subset _ _ h3)
          · exact Or.inr h4
        · rcases ih _ c h2 with h5 | h6
          · exact Or.inl (List.drop_subset _ _ h5)
          · exact Or.inr h6
      · rcases List.mem_append.mp h with h1 | h2
        · exact Or.inl (List.take_subset _ _ h1)
        · rcases ih _ c h2 with h5 | h6
          · exact Or.inl (List.drop_subset _ _ h5)
          · exact Or.inr h6

theorem ciwwReplaceAux_fst_mem (s r : Str) (fuel : Nat) :
    ∀ l c, c ∈ (ciwwReplaceAux s r fuel l).1 → c ∈ l ∨ c ∈ r := by
  induction fuel with
  | zero => intro l c h; exact Or.inl h
  | succ n ih =>
    intro l c h
    rw [ciwwReplaceAux] at h
    cases hx : indexOf? (toLowerStr l) (toLowerStr s) with
    | none => rw [hx] at h; exact Or.inl h
    | some i =>
      rw [hx] at h
      simp only at h
      split at h
      · rcases List.mem_append.mp h with h1 | h2
        · rcases List.mem_append.mp h1 with h3 | h4
          · exact Or.inl (List.take_subset _ _ h3)
          · exact Or.inr h4
        · rcases ih _ c h2 with h5 | h6
          · exact Or.inl (List.drop_subset _ _ h5)
          · exact Or.inr h6
      · rcases List.mem_append.mp h with h1 | h2
        · exact Or.inl (List.take_subset _ _ h1)
        · rcases ih _ c h2 with h5 | h6
          · exact Or.inl (List.drop_subset _ _ h5)
          · exact Or.inr h6

/-- Every character of a rewritten line comes from the original line or from
the replacement text. -/
theorem replaceInLine_mem (line s r : Str) (ci ww : Bool) (c : Char)
    (h : c ∈ replaceInLine line s r ci ww) : c ∈ line ∨ c ∈ r := by
  rw [replaceInLine] at h
  split at h
  · exact Or.inl h
  · split at h
    · exact replaceAllAux_fst_mem s r _ line c h
    · split at h
      · exact ciReplaceAux_fst_mem s r _ line c h
      · split at h
        · exact wwReplaceAux_fst_mem s r _ line c h
        · exact ciwwReplaceAux_fst_mem s r _ line c h

/-- A rewritten line of a newline-free line under a newline-free replacement
stays newline-free. -/
theorem processLine_no_nl (cfg : Config) (line : Str) (hl : '\n' ∉ line)
    (hr : '\n' ∉ cfg.replace) : '\n' ∉ processLine cfg line := by
  simp only [processLine]
  split_ifs <;> try exact hl
  all_goals
    intro h
    rcases replaceInLine_mem line cfg.search cfg.replace _ _ '\n' h with h1 | h2
    · exact hl h1
    · exact hr h2

/-- The modified-lines component of the per-line loop is the line-by-line
image of the rewriting. -/
theorem processLines_fst_aux (cfg : Config) (ls : List Str) :
    ∀ acc : List Str × Nat × Nat,
      (ls.foldl (processLinesStep cfg) acc).1 = acc.1 ++ ls.map (processLine cfg) := by
  induction ls with
  | nil => intro acc; simp
  | cons l t ih =>
    intro acc
    rw [List.foldl_cons, ih]
    simp only [processLinesStep]
    by_cases h : processLine cfg l ≠ l
    · rw [if_pos h]
      simp
    · rw [if_neg h]
      push_neg at h
      simp [h]

theorem processLines_fst (cfg : Config) (ls : List Str) :
    (processLines cfg ls).1 = ls.map (processLine cfg) := by
  rw [processLines, processLines_fst_aux]
  simp

/-- The last of the written lines is a suffix of the joined content. -/
theorem joinLE_suffix (le : Str) (ys : List Str) :
    ∀ w : Str, w <:+ joinLE le (ys ++ [w]) := by
  induction ys with
  | nil => intro w; exact ⟨[], rfl⟩
  | cons x ys' ih =>
    intro w
    cases ys' with
    | nil => exact ⟨x ++ le, by simp [joinLE]⟩
    | cons z zs =>
      obtain ⟨t, ht⟩ := ih w
      refine ⟨x ++ le ++ t, ?_⟩
      have : joinLE le (x :: (z :: zs) ++ [w]) = x ++ le ++ joinLE le ((z :: zs) ++ [w]) := by
        rfl
      rw [this, ← ht]
      simp

theorem getLast?_of_suffix {u v : Str} (h : u <:+ v) (hu : u ≠ []) :
    v.getLast? = u.getLast? := by
  obtain ⟨t, rfl⟩ := h
  exact List.getLast?_append_of_ne_nil t hu

theorem detectLineEndingAux_cases (l : Str) :
    detectLineEndingAux l = ['\n'] ∨ detectLineEndingAux l = ['\r', '\n'] := by
  induction l with
  | nil => left; rfl
  | cons a t ih =>
    cases t with
    | nil => left; rfl
    | cons b t' =>
      rw [detectLineEndingAux]
      split
      · right; rfl
      · split
        · left; rfl
        · exact ih

theorem detectLineEnding_cases (c : Str) :
    detectLineEnding c = ['\n'] ∨ detectLineEnding c = ['\r', '\n'] :=
  detectLineEndingAux_cases (c.take 8192)

/-- Counterexample to C10 as stated: the file `"a\n\n"` (which already ends
with a blank line) is rewritten to `"b\n\n"`, whose bytes end with two line
endings of the detected (LF) style, not exactly one. -/
theorem C10_two_trailing_newlines :
    replaceInFile { search := ['a'], replace := ['b'] } false (some "a\n\n".toList) =
        (.ok (1, 1), some "b\n\n".toList) ∧
      detectLineEnding "a\n\n".toList = "\n".toList ∧
      ("\n\n".toList : Str) <:+ "b\n\n".toList :=
  ⟨by decide, by decide, ⟨['b'], by decide⟩⟩

/-- C10 (amended): after every non-dry-run single-line replacement that
changed at least one line, the rewritten bytes end with the detected line
ending (so a file whose original content did not end with a newline gains a
trailing line ending), and they end with exactly one line ending whenever the
last written line is non-empty; a trailing blank line yields two. -/
theorem C10_trailing_newline (cfg : Config) (ro : Bool) (c : Str) (lc tr : Nat)
    (c' : Str)
    (hsr : cfg.search ≠ cfg.replace)
    (hml : isMultiline cfg.search cfg.replace = false)
    (hdr : cfg.dryRun = false)
    (hres : replaceInFile cfg ro (some c) = (.ok (lc, tr), some c'))
    (hlc : 0 < lc) :
    ∃ p, c' = p ++ detectLineEnding c ∧
      (∀ w, ((processLines cfg (scanLines c)).1).getLast? = some w → w ≠ [] →
        ¬ detectLineEnding c <:+ p) := by
  have hmlf : ¬ isMultiline cfg.search cfg.replace = true := by
    rw [hml]; simp
  rw [replaceInFile, if_neg hsr, if_neg hmlf] at hres
  have h1 : (replaceInFileSingleCore cfg ro c).1 = .ok (lc, tr) :=
    congrArg Prod.fst hres
  have h2 : (replaceInFileSingleCore cfg ro c).2 = c' := by
    have h0 := congrArg Prod.snd hres
    simpa using h0
  clear hres
  simp only [replaceInFileSingleCore] at h1 h2
  by_cases hcond : 0 < (processLines cfg (scanLines c)).2.1 ∧ cfg.dryRun = false
  case neg =>
    rw [if_neg hcond] at h1
    simp only [Except.ok.injEq, Prod.mk.injEq] at h1
    exact absurd ⟨by rw [h1.1]; exact hlc, hdr⟩ hcond
  case pos =>
    rw [if_pos hcond] at h1 h2
    cases ro with
    | true =>
      rw [writeFileAtomic_readOnly] at h1
      simp at h1
    | false =>
      rw [writeFileAtomic_ok] at h1 h2
      simp only [Except.ok.injEq, Prod.mk.injEq] at h1
      simp only [Option.getD_some] at h2
      have hlc' : (processLines cfg (scanLines c)).2.1 = lc := h1.1
      have hlines : scanLines c ≠ [] := by
        intro hnil
        rw [hnil] at hlc'
        simp [processLines] at hlc'
        omega
      have hmod : (processLines cfg (scanLines c)).1 ≠ [] := by
        rw [processLines_fst]
        simpa using hlines
      rw [renderFile, if_neg hmod] at h2
      refine ⟨joinLE (detectLineEnding c) (processLines cfg (scanLines c)).1,
        h2.symm, ?_⟩
      intro w hw hwne hsuf
      -- the last written line is newline-free
      have hwmem : w ∈ (processLines cfg (scanLines c)).1 := by
        obtain ⟨l', hl'⟩ := List.getLast?_eq_some_iff.mp hw
        rw [hl']
        simp
      have hwnl : '\n' ∉ w := by
        rw [processLines_fst] at hwmem
        obtain ⟨q, hq, rfl⟩ := List.mem_map.mp hwmem
        have hrnl : '\n' ∉ cfg.replace := by
          have : containsStr cfg.replace ['\n'] = false := by
            rw [isMultiline] at hml
            exact (Bool.or_eq_false_iff.mp hml).2
          exact not_mem_of_not_containsStr_single this
        exact processLine_no_nl cfg q (scanLines_no_nl c q hq) hrnl
      -- w is a suffix of the joined lines
      obtain ⟨ys, hys⟩ := List.getLast?_eq_some_iff.mp hw
      have hwsuf : w <:+ joinLE (detectLineEnding c) (processLines cfg (scanLines c)).1 := by
        rw [hys]
        exact joinLE_suffix (detectLineEnding c) ys w
      -- so the joined lines end in a non-newline character
      have hlast1 := getLast?_of_suffix hwsuf hwne
      have hlast2 := getLast?_of_suffix hsuf (by
        rcases detectLineEnding_cases c with h | h <;> simp [h])
      have hlastnl : (detectLineEnding c).getLast? = some '\n' := by
        rcases detectLineEnding_cases c with h | h <;> simp [h]
      rw [hlast2, hlastnl] at hlast1
      obtain ⟨wc, hwc⟩ : ∃ wc, w.getLast? = some wc := by
        cases hwl : w.getLast? with
        | none => exact absurd (List.getLast?_eq_none_iff.mp hwl) hwne
        | some wc => exact ⟨wc, rfl⟩
      rw [hwc] at hlast1
      have : wc ∈ w := by
        obtain ⟨l', hl'⟩ := List.getLast?_eq_some_iff.mp hwc
        rw [hl']
        simp
      rw [show wc = '\n' from by simpa using hlast1.symm] at this
      exact hwnl this

/-- Witness for the amended C10: modifying the newline-less file `"a"` yields
`"b\n"`, which ends in exactly one (gained) line ending. -/
theorem C10_trailing_newline_witness :
    replaceInFile { search := ['a'], replace := ['b'] } false (some "a".toList) =
        (.ok (1, 1), some "b\n".toList) ∧
      ∃ p, "b\n".toList = p ++ detectLineEnding "a".toList ∧
        (∀ w, ((processLines { search := ['a'], replace := ['b'] }
            (scanLines "a".toList)).1).getLast? = some w → w ≠ [] →
          ¬ detectLineEnding "a".toList <:+ p) :=
  ⟨by decide, C10_trailing_newline { search := ['a'], replace := ['b'] } false
    "a".toList 1 1 "b\n".toList (by decide) (by decide) rfl (by decide) (by decide)⟩

end Repfor
